import Mathlib

/-!
Shallow embedding of the Web3-Portfolio teaching programs
(`src/pow_rsa_demo/rsa_pow_sign.py` and
`src/simple-pow-sha256/pow_sha256.py`) and proofs about them.

Modelling conventions:
* Python's arbitrary-precision integers are `Nat` (signatures handed to the
  verifier are `Int`, since a caller may pass a negative integer).
* Strings are `List Char`; SHA-256 is the external primitive the spec
  declares it to be, modelled as a parameter `hf : List Char → List Nat`
  producing the 32-byte digest.  The hex digest and the big-endian integer
  digest are computed from those bytes exactly as the code does.
* The global random generator is modelled by oracle functions supplying the
  raw random draws; `random.randrange(lo, hi)` applied to a draw `s` is
  `lo + s % (hi - lo)`, whose image over all draws is exactly
  `[lo, hi - 1]`, matching Python's half-open contract.
* Unbounded `while True` loops take a fuel argument and return `Option`;
  `none` means the observed run did not terminate within the fuel.
* Python's three-argument `pow` is binary modular exponentiation (`powMod`),
  `pow(e, -1, m)` is `modInverse` (extended Euclid), and a `ValueError`
  (modulus 0) is modelled as `none`.
-/

/-- Fast modular exponentiation, structural in a fuel argument so that the
kernel can evaluate it; `powModAux b m fuel e = b ^ e % m` whenever
`e ≤ fuel` and `0 < m`.  Mirrors Python's three-argument `pow`. -/
def powModAux (b m : Nat) : Nat → Nat → Nat
  | _, 0 => 1 % m
  | 0, _ + 1 => 1 % m
  | fuel + 1, e + 1 =>
    let h := powModAux b m fuel ((e + 1) / 2)
    let h2 := h * h % m
    if (e + 1) % 2 = 1 then h2 * (b % m) % m else h2

/-- `pow(b, e, m)` of Python (for `m > 0`). -/
def powMod (b e m : Nat) : Nat := powModAux b m e e

/-- Write `m = 2 ^ r * d` with `d` odd, returning `(r, d)`: the
`while d % 2 == 0: r += 1; d //= 2` loop of `is_prime`, structural in a
fuel argument (`fuel = m` always suffices). -/
def splitTwosAux : Nat → Nat → Nat × Nat
  | 0, d => (0, d)
  | fuel + 1, d =>
    if d % 2 = 0 ∧ d ≠ 0 then
      let rd := splitTwosAux fuel (d / 2)
      (rd.1 + 1, rd.2)
    else (0, d)

/-- The `(r, d)` decomposition the Miller–Rabin test computes from `n - 1`. -/
def splitTwos (m : Nat) : Nat × Nat := splitTwosAux m m

/-- `random.randrange(lo, hi)` fed with the raw random draw `s`: a uniform
draw from the half-open interval `[lo, hi)` (Python excludes `hi`). -/
def randrange (lo hi s : Nat) : Nat := lo + s % (hi - lo)

/-- The fixed trial-division list of `is_prime`. -/
def smallPrimes : List Nat := [2, 3, 5, 7, 11, 13, 17, 19, 23]

/-- The inner squaring loop of one Miller–Rabin round
(`for __ in range(r - 1): x = pow(x, 2, n); if x == n - 1: break`,
with the `for ... else: return False` meaning "this round failed"). -/
def mrInner (n : Nat) : Nat → Nat → Bool
  | _, 0 => false
  | x, j + 1 =>
    let x2 := x * x % n
    if x2 = n - 1 then true else mrInner n x2 j

/-- One Miller–Rabin round of `is_prime` at base `a`, where
`n - 1 = 2 ^ r * d`. -/
def mrRound (n d r a : Nat) : Bool :=
  let x := powMod a d n
  if x = 1 ∨ x = n - 1 then true else mrInner n x (r - 1)

/-- `is_prime(n, k)` of `rsa_pow_sign.py`; `seeds i` is the raw random draw
behind the `i`-th `random.randrange(2, n - 2)` call. -/
def is_prime (n k : Nat) (seeds : Nat → Nat) : Bool :=
  if n < 2 then false
  else if smallPrimes.contains n then true
  else if smallPrimes.any (fun p => n % p == 0) then false
  else
    (List.range k).all fun i =>
      mrRound n (splitTwos (n - 1)).2 (splitTwos (n - 1)).1
        (randrange 2 (n - 2) (seeds i))

/-- The candidate `random.getrandbits(bits) | 1 | (1 << (bits - 1))` of
`generate_large_prime`, with `s` the raw `getrandbits` draw
(`s % 2 ^ bits` is an arbitrary `bits`-bit value, and
`1 <<< (bits - 1) = 2 ^ (bits - 1)`). -/
def mkCandidate (bits s : Nat) : Nat :=
  s % 2 ^ bits ||| 1 ||| 2 ^ (bits - 1)

/-- `generate_large_prime(bits)`: the unbounded retry loop, with `rand i`
the raw `getrandbits` draw of attempt `i` and `mr i` the randrange draws of
the `is_prime` call on attempt `i`. -/
def generate_large_prime (bits : Nat) (rand : Nat → Nat) (mr : Nat → Nat → Nat) :
    Nat → Nat → Option Nat
  | 0, _ => none
  | fuel + 1, i =>
    let c := mkCandidate bits (rand i)
    if is_prime c 10 (mr i) then some c
    else generate_large_prime bits rand mr fuel (i + 1)

/-- Extended Euclid, structural in a fuel argument: for `a < fuel`,
`(egcdAux fuel a b).1 * a + (egcdAux fuel a b).2 * b = gcd a b`. -/
def egcdAux : Nat → Nat → Nat → Int × Int
  | 0, _, _ => (0, 1)
  | fuel + 1, a, b =>
    if a = 0 then (0, 1)
    else
      let xy := egcdAux fuel (b % a) a
      (xy.2 - ((b / a : Nat) : Int) * xy.1, xy.1)

/-- Bezout coefficients `(x, y)` with `x * a + y * b = gcd a b`. -/
def egcd (a b : Nat) : Int × Int := egcdAux (a + 1) a b

/-- Python's `pow(a, -1, m)`: the modular inverse of `a` modulo `m`,
canonically represented in `[0, m)`. -/
def modInverse (a m : Nat) : Nat := ((egcd a m).1 % (m : Int)).toNat

/-- The body of `generate_rsa_keypair` once `p` and `q` are sampled:
`continue` when `p == q`, retry when `gcd(e, phi) ≠ 1`, otherwise build
`((e, n), (d, n))` with `e = 65537` and `d = pow(e, -1, phi)`. -/
def keypairFromPQ (p q : Nat) : Option ((Nat × Nat) × (Nat × Nat)) :=
  if p = q then none
  else
    if Nat.gcd 65537 ((p - 1) * (q - 1)) = 1 then
      some ((65537, p * q), (modInverse 65537 ((p - 1) * (q - 1)), p * q))
    else none

/-- The retry loop of `generate_rsa_keypair`; attempt `t` samples `p` and
`q` through `generate_large_prime` with its own oracle slices. -/
def genKeypairAux (bits : Nat) (randP randQ : Nat → Nat → Nat)
    (mrP mrQ : Nat → Nat → Nat → Nat) (glpFuel : Nat) :
    Nat → Nat → Option ((Nat × Nat) × (Nat × Nat))
  | 0, _ => none
  | fuel + 1, t =>
    match generate_large_prime (bits / 2) (randP t) (mrP t) glpFuel 0,
        generate_large_prime (bits / 2) (randQ t) (mrQ t) glpFuel 0 with
    | some p, some q =>
      match keypairFromPQ p q with
      | some keys => some keys
      | none => genKeypairAux bits randP randQ mrP mrQ glpFuel fuel (t + 1)
    | _, _ => none

/-- `generate_rsa_keypair(bits)` of `rsa_pow_sign.py`. -/
def generate_rsa_keypair (bits : Nat) (randP randQ : Nat → Nat → Nat)
    (mrP mrQ : Nat → Nat → Nat → Nat) (glpFuel fuel : Nat) :
    Option ((Nat × Nat) × (Nat × Nat)) :=
  genKeypairAux bits randP randQ mrP mrQ glpFuel fuel 0

/-- Big-endian integer value of a byte string:
`int.from_bytes(h, byteorder="big")`. -/
def fromBytesBE (bytes : List Nat) : Nat :=
  bytes.foldl (fun acc b => acc * 256 + b) 0

/-- Lower-case hexadecimal digit of a value below 16. -/
def hexDigitChar (k : Nat) : Char :=
  if k < 10 then Char.ofNat (48 + k) else Char.ofNat (87 + k)

/-- Lower-case hex encoding of a byte string, two digits per byte:
`hashlib.sha256(...).hexdigest()` applied to the digest bytes. -/
def bytesToHex (bytes : List Nat) : List Char :=
  bytes.flatMap fun b => [hexDigitChar (b / 16), hexDigitChar (b % 16)]

/-- Decimal digit character. -/
def digitChar (k : Nat) : Char := Char.ofNat (48 + k)

/-- Decimal representation of a natural number, structural in a fuel
argument (`fuel = n + 1` always suffices): Python's `str(nonce)`. -/
def natDecimalAux : Nat → Nat → List Char
  | 0, _ => []
  | fuel + 1, n =>
    if n < 10 then [digitChar n]
    else natDecimalAux fuel (n / 10) ++ [digitChar (n % 10)]

/-- `str(n)` for a natural number `n`. -/
def natDecimal (n : Nat) : List Char := natDecimalAux (n + 1) n

/-- `sha256_int(message)`: the digest bytes interpreted big-endian. -/
def sha256_int (hf : List Char → List Nat) (message : List Char) : Nat :=
  fromBytesBE (hf message)

/-- `rsa_sign(message, (d, n))`: `pow(sha256_int(message), d, n)`;
`none` models the `ValueError` Python's `pow` raises when `n = 0`. -/
def rsa_sign (hf : List Char → List Nat) (message : List Char)
    (privateKey : Nat × Nat) : Option Nat :=
  if privateKey.2 = 0 then none
  else some (powMod (sha256_int hf message) privateKey.1 privateKey.2)

/-- `pow(s, e, n)` for a (possibly negative) integer base `s` and `n > 0`:
Python first reduces the base into `[0, n)`. -/
def powModInt (s : Int) (e n : Nat) : Nat := powMod (s % (n : Int)).toNat e n

/-- `rsa_verify(message, signature, (e, n))`: compares `sha256_int(message)`
with `pow(signature, e, n)`; `none` models the `ValueError` when `n = 0`. -/
def rsa_verify (hf : List Char → List Nat) (message : List Char)
    (signature : Int) (publicKey : Nat × Nat) : Option Bool :=
  if publicKey.2 = 0 then none
  else some (sha256_int hf message == powModInt signature publicKey.1 publicKey.2)

/-- The `while True` loop of `pow_search(nickname, prefix)` of
`rsa_pow_sign.py`, from a given starting nonce.  On success it returns the
tuple `(msg, h, nonce)` in the order the source returns it. -/
def pow_searchAux (hf : List Char → List Nat) (nickname tPre : List Char) :
    Nat → Nat → Option (List Char × List Char × Nat)
  | 0, _ => none
  | fuel + 1, nonce =>
    let msg := nickname ++ natDecimal nonce
    let h := bytesToHex (hf msg)
    if tPre.isPrefixOf h then some (msg, h, nonce)
    else pow_searchAux hf nickname tPre fuel (nonce + 1)

/-- `pow_search(nickname, prefix)`: the search starts at nonce 0. -/
def pow_search (hf : List Char → List Nat) (nickname tPre : List Char)
    (fuel : Nat) : Option (List Char × List Char × Nat) :=
  pow_searchAux hf nickname tPre fuel 0

/-- The module-level `NICKNAME` of `pow_sha256.py`. -/
def NICKNAME : List Char := ['S', 'a', 'm']

/-- The `while True` loop of `mine(target_prefix)` of `pow_sha256.py` from a
given starting nonce.  On success the source returns
`(nonce, content, hash_hex, elapsed)`; the trailing `elapsed` value is
wall-clock timing instrumentation, outside the specified core, so the model
returns `(nonce, content, hash_hex)`. -/
def mineAux (hf : List Char → List Nat) (tPre : List Char) :
    Nat → Nat → Option (Nat × List Char × List Char)
  | 0, _ => none
  | fuel + 1, nonce =>
    let content := NICKNAME ++ natDecimal nonce
    let hashHex := bytesToHex (hf content)
    if tPre.isPrefixOf hashHex then some (nonce, content, hashHex)
    else mineAux hf tPre fuel (nonce + 1)

/-- `mine(target_prefix)`: the search starts at nonce 0. -/
def mine (hf : List Char → List Nat) (tPre : List Char) (fuel : Nat) :
    Option (Nat × List Char × List Char) :=
  mineAux hf tPre fuel 0

/-- A hash model whose digest is the 32 bytes `0xff…ff` (digest integer
`2 ^ 256 - 1`, the largest value an actual SHA-256 digest can take). -/
def hashFF : List Char → List Nat := fun _ => List.replicate 32 255

/-- A hash model whose digest is the 32 zero bytes. -/
def hashZero : List Char → List Nat := fun _ => List.replicate 32 0

/-- A hash model with a small digest integer (7). -/
def hashSmall : List Char → List Nat := fun _ => List.replicate 31 0 ++ [7]

/-- A hash model whose hex digest starts with "0" exactly on the message
`NICKNAME ++ "1"`: used to exercise the first-match guarantee. -/
def hashAt1 : List Char → List Nat := fun s =>
  if s = NICKNAME ++ natDecimal 1 then List.replicate 32 0
  else List.replicate 32 255

/-! ### Correctness of the modular-exponentiation and decomposition helpers -/

theorem powModAux_eq (b m : Nat) :
    ∀ fuel e, e ≤ fuel → powModAux b m fuel e = b ^ e % m := by
  intro fuel
  induction fuel with
  | zero =>
    intro e he
    interval_cases e
    simp [powModAux, Nat.pow_zero]
  | succ fuel ih =>
    intro e he
    match e with
    | 0 => simp [powModAux, Nat.pow_zero]
    | e + 1 =>
      have hle : (e + 1) / 2 ≤ fuel := by omega
      have hrec := ih ((e + 1) / 2) hle
      show (if (e + 1) % 2 = 1 then
          (powModAux b m fuel ((e + 1) / 2) * powModAux b m fuel ((e + 1) / 2) % m) * (b % m) % m
        else powModAux b m fuel ((e + 1) / 2) * powModAux b m fuel ((e + 1) / 2) % m)
          = b ^ (e + 1) % m
      rw [hrec]
      by_cases hpar : (e + 1) % 2 = 1
      · have he1 : e + 1 = (e + 1) / 2 * 2 + 1 := by omega
        rw [if_pos hpar]
        conv_rhs => rw [he1]
        rw [pow_succ, pow_mul, pow_two]
        rw [Nat.mul_mod (b ^ ((e + 1) / 2) * b ^ ((e + 1) / 2)) b m]
        rw [Nat.mul_mod (b ^ ((e + 1) / 2)) (b ^ ((e + 1) / 2)) m]
      · have he1 : e + 1 = (e + 1) / 2 * 2 := by omega
        rw [if_neg hpar]
        conv_rhs => rw [he1]
        rw [pow_mul, pow_two]
        rw [Nat.mul_mod (b ^ ((e + 1) / 2)) (b ^ ((e + 1) / 2)) m]

/-- `powMod` agrees with Python's `pow(b, e, m)`. -/
theorem powMod_eq (b e m : Nat) : powMod b e m = b ^ e % m :=
  powModAux_eq b m e e le_rfl

theorem splitTwosAux_spec : ∀ fuel d, 0 < d → d ≤ fuel →
    2 ^ (splitTwosAux fuel d).1 * (splitTwosAux fuel d).2 = d ∧
      (splitTwosAux fuel d).2 % 2 = 1 := by
  intro fuel
  induction fuel with
  | zero => intro d hd hle; omega
  | succ fuel ih =>
    intro d hd hle
    by_cases hcase : d % 2 = 0 ∧ d ≠ 0
    · have hd2 : 0 < d / 2 := by omega
      have hd2le : d / 2 ≤ fuel := by omega
      simp only [splitTwosAux, if_pos hcase]
      constructor
      · rw [pow_succ]
        have hcomm : 2 ^ (splitTwosAux fuel (d / 2)).1 * 2 * (splitTwosAux fuel (d / 2)).2
            = 2 * (2 ^ (splitTwosAux fuel (d / 2)).1 * (splitTwosAux fuel (d / 2)).2) := by
          ring
        rw [hcomm, (ih (d / 2) hd2 hd2le).1]
        omega
      · exact (ih (d / 2) hd2 hd2le).2
    · simp only [splitTwosAux, if_neg hcase]
      constructor
      · simp
      · omega

/-- `splitTwos m = (r, d)` really decomposes `m = 2 ^ r * d` with `d` odd. -/
theorem splitTwos_spec (m : Nat) (hm : 0 < m) :
    2 ^ (splitTwos m).1 * (splitTwos m).2 = m ∧ (splitTwos m).2 % 2 = 1 :=
  splitTwosAux_spec m m hm le_rfl

theorem egcdAux_spec : ∀ fuel a b, a < fuel →
    (egcdAux fuel a b).1 * a + (egcdAux fuel a b).2 * b = Nat.gcd a b := by
  intro fuel
  induction fuel with
  | zero => intro a b h; omega
  | succ fuel ih =>
    intro a b h
    by_cases ha : a = 0
    · subst ha; simp [egcdAux]
    · have h1 : b % a < a := Nat.mod_lt b (by omega)
      have hmodlt : b % a < fuel := by omega
      have hrec := ih (b % a) a hmodlt
      simp only [egcdAux, if_neg ha]
      rw [Nat.gcd_rec a b]
      have hdm := Nat.div_add_mod b a
      have hml : a * (b / a) ≤ b := by omega
      have hsub : b % a = b - a * (b / a) := by omega
      have hcast : ((b % a : Nat) : Int) = (b : Int) - (a : Int) * ((b / a : Nat) : Int) := by
        rw [hsub, Nat.cast_sub hml, Nat.cast_mul]
      rw [hcast] at hrec
      linear_combination hrec

/-- `modInverse a m` is Python's `pow(a, -1, m)`: the inverse of `a` in
`[0, m)` whenever `gcd a m = 1` and `1 < m`. -/
theorem modInverse_spec (a m : Nat) (hm : 1 < m) (hg : Nat.gcd a m = 1) :
    modInverse a m < m ∧ a * modInverse a m % m = 1 := by
  have hb : (egcd a m).1 * a + (egcd a m).2 * m = 1 := by
    have := egcdAux_spec (a + 1) a m (by omega)
    rw [egcd, this, hg]
    norm_num
  have hm0 : (m : Int) ≠ 0 := by
    simp only [ne_eq, Nat.cast_eq_zero]
    omega
  have hmpos : (0 : Int) < m := by exact_mod_cast Nat.zero_lt_of_lt hm
  have hmodlt : (egcd a m).1 % (m : Int) < m := Int.emod_lt_of_pos _ hmpos
  have hmodnn : 0 ≤ (egcd a m).1 % (m : Int) := Int.emod_nonneg _ hm0
  constructor
  · rw [modInverse]
    omega
  · have hcongr : ((a * modInverse a m : Nat) : Int) % m = 1 % (m : Int) := by
      rw [modInverse]
      push_cast [Int.toNat_of_nonneg hmodnn]
      rw [Int.mul_emod, Int.emod_emod_of_dvd _ dvd_rfl, ← Int.mul_emod]
      have hlin : (a : Int) * (egcd a m).1 = 1 - (egcd a m).2 * m := by linarith
      rw [hlin]
      simp [Int.sub_emod, Int.mul_emod_left, Int.emod_emod_of_dvd]
    have h1m : (1 : Int) % m = 1 := by
      rw [Int.emod_eq_of_lt] <;> omega
    rw [h1m, ← Int.natCast_mod] at hcongr
    exact_mod_cast hcongr

/-! ### The Miller–Rabin test never rejects a prime -/

theorem natCast_inj_lt {n a b : Nat} (ha : a < n) (hb : b < n)
    (h : (a : ZMod n) = b) : a = b := by
  have h1 := ZMod.val_cast_of_lt ha
  have h2 := ZMod.val_cast_of_lt hb
  rw [← h1, ← h2, h]

theorem natCast_pred_eq_neg_one {n : Nat} (h : 1 ≤ n) :
    ((n - 1 : Nat) : ZMod n) = -1 := by
  rw [Nat.cast_sub h, ZMod.natCast_self, Nat.cast_one, zero_sub]

/-- In `ZMod p` (`p` prime), an element whose `2 ^ r`-th power is 1 is
either 1 or reaches `-1` somewhere along the squaring chain. -/
theorem sqChain {p : Nat} [Fact p.Prime] (y : ZMod p) :
    ∀ r, y ^ (2 ^ r) = 1 → y = 1 ∨ ∃ i, i < r ∧ y ^ (2 ^ i) = -1 := by
  intro r
  induction r with
  | zero => intro h; left; simpa using h
  | succ r ih =>
    intro h
    have hsq : y ^ (2 ^ r) * y ^ (2 ^ r) = 1 := by
      rw [← pow_add]
      rw [← h]
      congr 1
      ring
    rcases mul_self_eq_one_iff.mp hsq with h1 | hm1
    · rcases ih h1 with h' | ⟨i, hi, hy⟩
      · exact Or.inl h'
      · exact Or.inr ⟨i, by omega, hy⟩
    · exact Or.inr ⟨r, by omega, hm1⟩

/-- If some iterated square of `x` hits `n - 1` within `fuel` squarings, the
inner loop reports success. -/
theorem mrInner_of_pow {n : Nat} (hn : 2 ≤ n) :
    ∀ fuel x i, 1 ≤ i → i ≤ fuel → x ^ 2 ^ i % n = n - 1 →
      mrInner n x fuel = true := by
  intro fuel
  induction fuel with
  | zero => intro x i h1 h2 h3; omega
  | succ fuel ih =>
    intro x i h1 h2 h3
    show (if x * x % n = n - 1 then true else mrInner n (x * x % n) fuel) = true
    by_cases hx2 : x * x % n = n - 1
    · rw [if_pos hx2]
    · rw [if_neg hx2]
      rcases Nat.lt_or_ge i 2 with hi2 | hi2
      · have hi1 : i = 1 := by omega
        rw [hi1] at h3
        simp only [pow_one, pow_two] at h3
        omega
      · apply ih (x * x % n) (i - 1) (by omega) (by omega)
        have hpm : (x * x % n) ^ 2 ^ (i - 1) % n = (x * x) ^ 2 ^ (i - 1) % n :=
          (Nat.pow_mod (x * x) (2 ^ (i - 1)) n).symm
        rw [hpm, ← pow_two, ← pow_mul]
        have h2i : 2 * 2 ^ (i - 1) = 2 ^ i := by
          rw [← pow_succ']
          congr 1
          omega
        rw [h2i]
        exact h3

/-- A Miller–Rabin round at any base `0 < a < n` passes when `n` is prime. -/
theorem mrRound_prime {n : Nat} (hp : n.Prime) (hn : 5 ≤ n) {r d : Nat}
    (hrd : 2 ^ r * d = n - 1) {a : Nat} (ha0 : 0 < a) (han : a < n) :
    mrRound n d r a = true := by
  haveI : Fact n.Prime := ⟨hp⟩
  haveI : NeZero n := ⟨by omega⟩
  set x := powMod a d n with hxdef
  have hxval : x = a ^ d % n := powMod_eq a d n
  have hxlt : x < n := by rw [hxval]; exact Nat.mod_lt _ (by omega)
  have hA : (a : ZMod n) ≠ 0 := by
    intro h0
    have := ZMod.val_cast_of_lt han
    rw [h0, ZMod.val_zero] at this
    omega
  have hxcast : ((x : Nat) : ZMod n) = (a : ZMod n) ^ d := by
    rw [hxval, ZMod.natCast_mod, Nat.cast_pow]
  have hfermat : ((a : ZMod n) ^ d) ^ 2 ^ r = 1 := by
    rw [← pow_mul, mul_comm d (2 ^ r), hrd]
    exact ZMod.pow_card_sub_one_eq_one hA
  rcases sqChain ((a : ZMod n) ^ d) r hfermat with h1 | ⟨i, hir, hyi⟩
  · have hx1 : x = 1 := by
      apply natCast_inj_lt hxlt (by omega)
      rw [hxcast, h1, Nat.cast_one]
    show (if x = 1 ∨ x = n - 1 then true else mrInner n x (r - 1)) = true
    rw [if_pos (Or.inl hx1)]
  · rcases Nat.eq_zero_or_pos i with hi0 | hi1
    · have hxm1 : x = n - 1 := by
        apply natCast_inj_lt hxlt (by omega)
        rw [hxcast, natCast_pred_eq_neg_one (by omega)]
        rw [hi0] at hyi
        simpa using hyi
      show (if x = 1 ∨ x = n - 1 then true else mrInner n x (r - 1)) = true
      rw [if_pos (Or.inr hxm1)]
    · show (if x = 1 ∨ x = n - 1 then true else mrInner n x (r - 1)) = true
      by_cases hx : x = 1 ∨ x = n - 1
      · rw [if_pos hx]
      · rw [if_neg hx]
        apply mrInner_of_pow (by omega) (r - 1) x i hi1 (by omega)
        apply natCast_inj_lt (Nat.mod_lt _ (by omega)) (by omega)
        rw [ZMod.natCast_mod, Nat.cast_pow, hxcast, ← pow_mul,
          natCast_pred_eq_neg_one (by omega : 1 ≤ n)]
        rw [← pow_mul] at hyi
        exact hyi

/-- The primes below 29 are exactly the trial-division list. -/
theorem prime_small_all :
    ∀ n, n < 29 → Nat.Prime n → smallPrimes.contains n = true := by
  decide

/-- `is_prime` accepts every prime, whatever random draws occur. -/
theorem isPrime_of_prime (n k : Nat) (seeds : Nat → Nat) (hp : n.Prime) :
    is_prime n k seeds = true := by
  have h2 : 2 ≤ n := hp.two_le
  rw [is_prime, if_neg (by omega)]
  by_cases hc : smallPrimes.contains n = true
  · rw [if_pos hc]
  · rw [if_neg hc]
    have h29 : 29 ≤ n := by
      by_contra h
      exact hc (prime_small_all n (by omega) hp)
    have hany : smallPrimes.any (fun p => n % p == 0) = false := by
      rw [List.any_eq_false]
      intro p hpmem
      simp only [beq_iff_eq]
      intro hmod
      have hdvd : p ∣ n := Nat.dvd_of_mod_eq_zero hmod
      have h2p : 2 ≤ p ∧ p ≤ 23 := by
        fin_cases hpmem <;> omega
      rcases (Nat.Prime.eq_one_or_self_of_dvd hp p hdvd) with h1 | hn
      · omega
      · have : smallPrimes.contains n = true := by
          rw [← hn]
          fin_cases hpmem <;> decide
        omega
    rw [if_neg (by rw [hany]; exact Bool.false_ne_true)]
    rw [List.all_eq_true]
    intro i hi
    have hsplit := splitTwos_spec (n - 1) (by omega)
    apply mrRound_prime hp (by omega) hsplit.1
    · show 0 < 2 + seeds i % (n - 2 - 2)
      omega
    · show 2 + seeds i % (n - 2 - 2) < n
      have := Nat.mod_lt (seeds i) (y := n - 2 - 2) (by omega)
      omega

/-! ### RSA round-trip arithmetic -/

theorem fermat_step {p : Nat} (hp : p.Prime) (h t : Nat) :
    h ^ (1 + (p - 1) * t) ≡ h [MOD p] := by
  by_cases hdvd : p ∣ h
  · have h0 : h ≡ 0 [MOD p] := (Nat.modEq_zero_iff_dvd).mpr hdvd
    calc h ^ (1 + (p - 1) * t) ≡ 0 ^ (1 + (p - 1) * t) [MOD p] := h0.pow _
      _ = 0 := by rw [zero_pow]; omega
      _ ≡ h [MOD p] := h0.symm
  · have hcop : Nat.Coprime h p :=
      ((Nat.Prime.coprime_iff_not_dvd hp).mpr hdvd).symm
    have heuler : h ^ (p - 1) ≡ 1 [MOD p] := by
      have := Nat.ModEq.pow_totient hcop
      rwa [Nat.totient_prime hp] at this
    calc h ^ (1 + (p - 1) * t) = h * (h ^ (p - 1)) ^ t := by
          rw [pow_add, pow_one, pow_mul]
      _ ≡ h * 1 ^ t [MOD p] := Nat.ModEq.mul_left h (heuler.pow t)
      _ = h := by rw [one_pow, mul_one]

/-- The textbook-RSA identity: for distinct primes `p, q` and exponents with
`e * d ≡ 1 (mod (p-1)(q-1))`, raising to `e * d` fixes every residue. -/
theorem roundtrip_exponent {p q e d : Nat} (hp : p.Prime) (hq : q.Prime)
    (hpq : p ≠ q) (hed : e * d % ((p - 1) * (q - 1)) = 1) (h : Nat) :
    h ^ (e * d) ≡ h [MOD p * q] := by
  set phi := (p - 1) * (q - 1) with hphidef
  have hdm := Nat.div_add_mod (e * d) phi
  obtain ⟨k, hk⟩ : ∃ k, e * d = 1 + phi * k := ⟨e * d / phi, by omega⟩
  have hmodp : h ^ (e * d) ≡ h [MOD p] := by
    have hexp : e * d = 1 + (p - 1) * ((q - 1) * k) := by
      rw [hk, hphidef]; ring
    rw [hexp]
    exact fermat_step hp h _
  have hmodq : h ^ (e * d) ≡ h [MOD q] := by
    have hexp : e * d = 1 + (q - 1) * ((p - 1) * k) := by
      rw [hk, hphidef]; ring
    rw [hexp]
    exact fermat_step hq h _
  have hcop : Nat.Coprime p q := (Nat.coprime_primes hp hq).mpr hpq
  exact (Nat.modEq_and_modEq_iff_modEq_mul hcop).mp ⟨hmodp, hmodq⟩

/-! ### What the generators can return -/

theorem generate_large_prime_spec (bits : Nat) (rand : Nat → Nat)
    (mr : Nat → Nat → Nat) : ∀ fuel i0 r,
    generate_large_prime bits rand mr fuel i0 = some r →
      ∃ i, r = mkCandidate bits (rand i) ∧ is_prime r 10 (mr i) = true := by
  intro fuel
  induction fuel with
  | zero => intro i0 r h; simp [generate_large_prime] at h
  | succ fuel ih =>
    intro i0 r h
    by_cases hok : is_prime (mkCandidate bits (rand i0)) 10 (mr i0) = true
    · rw [generate_large_prime, if_pos hok] at h
      obtain rfl : mkCandidate bits (rand i0) = r := by simpa using h
      exact ⟨i0, rfl, hok⟩
    · rw [generate_large_prime, if_neg hok] at h
      exact ih (i0 + 1) r h

theorem mkCandidate_odd (bits s : Nat) : mkCandidate bits s % 2 = 1 := by
  have htb : (mkCandidate bits s).testBit 0 = true := by
    rw [mkCandidate, Nat.testBit_lor, Nat.testBit_lor]
    have h1 : (1 : Nat).testBit 0 = true := by decide
    rw [h1]
    simp
  rw [Nat.testBit_zero] at htb
  simpa using htb

theorem mkCandidate_lt (bits s : Nat) (hb : 1 ≤ bits) :
    mkCandidate bits s < 2 ^ bits := by
  rw [mkCandidate]
  apply Nat.or_lt_two_pow
  · apply Nat.or_lt_two_pow
    · exact Nat.mod_lt _ (by positivity)
    · exact Nat.one_lt_two_pow (by omega)
  · exact Nat.pow_lt_pow_right (by omega) (by omega)

theorem mkCandidate_ge (bits s : Nat) :
    2 ^ (bits - 1) ≤ mkCandidate bits s := by
  by_contra hlt
  push_neg at hlt
  have hfalse := Nat.testBit_eq_false_of_lt hlt
  rw [mkCandidate, Nat.testBit_lor, Nat.testBit_lor] at hfalse
  rw [Nat.testBit_two_pow_self] at hfalse
  simp at hfalse

/-- A value `is_prime` accepts is at least 2. -/
theorem isPrime_two_le {n k : Nat} {seeds : Nat → Nat}
    (h : is_prime n k seeds = true) : 2 ≤ n := by
  by_contra hlt
  rw [is_prime, if_pos (by omega)] at h
  exact Bool.false_ne_true h

/-- Whatever `generate_large_prime` returns is odd and at least 3. -/
theorem generate_large_prime_three_le {bits : Nat} {rand : Nat → Nat}
    {mr : Nat → Nat → Nat} {fuel i0 r : Nat}
    (h : generate_large_prime bits rand mr fuel i0 = some r) :
    3 ≤ r ∧ r % 2 = 1 := by
  obtain ⟨i, hcand, hpr⟩ := generate_large_prime_spec bits rand mr fuel i0 r h
  have hodd : r % 2 = 1 := by rw [hcand]; exact mkCandidate_odd bits (rand i)
  have h2 := isPrime_two_le hpr
  exact ⟨by omega, hodd⟩

theorem keypairFromPQ_spec {p q : Nat} {keys : (Nat × Nat) × (Nat × Nat)}
    (h : keypairFromPQ p q = some keys) :
    p ≠ q ∧ Nat.gcd 65537 ((p - 1) * (q - 1)) = 1 ∧
      keys = ((65537, p * q), (modInverse 65537 ((p - 1) * (q - 1)), p * q)) := by
  by_cases hpq : p = q
  · rw [keypairFromPQ, if_pos hpq] at h
    simp at h
  · rw [keypairFromPQ, if_neg hpq] at h
    by_cases hg : Nat.gcd 65537 ((p - 1) * (q - 1)) = 1
    · rw [if_pos hg] at h
      refine ⟨hpq, hg, ?_⟩
      simpa using h.symm
    · rw [if_neg hg] at h
      simp at h

theorem genKeypairAux_spec (bits : Nat) (randP randQ : Nat → Nat → Nat)
    (mrP mrQ : Nat → Nat → Nat → Nat) (glpFuel : Nat) : ∀ fuel t0 keys,
    genKeypairAux bits randP randQ mrP mrQ glpFuel fuel t0 = some keys →
      ∃ t p q,
        generate_large_prime (bits / 2) (randP t) (mrP t) glpFuel 0 = some p ∧
        generate_large_prime (bits / 2) (randQ t) (mrQ t) glpFuel 0 = some q ∧
        keypairFromPQ p q = some keys := by
  intro fuel
  induction fuel with
  | zero => intro t0 keys h; simp [genKeypairAux] at h
  | succ fuel ih =>
    intro t0 keys h
    rw [genKeypairAux] at h
    split at h
    · rename_i p q hP hQ
      split at h
      · rename_i keys' hK
        obtain rfl : keys' = keys := by simpa using h
        exact ⟨t0, p, q, hP, hQ, hK⟩
      · rename_i hK
        exact ih (t0 + 1) keys h
    · rename_i hother
      simp at h

/-! ### The proof-of-work search loops -/

theorem pow_searchAux_spec (hf : List Char → List Nat) (nickname tPre : List Char) :
    ∀ fuel start msg dig n0,
      pow_searchAux hf nickname tPre fuel start = some (msg, dig, n0) →
        start ≤ n0 ∧ msg = nickname ++ natDecimal n0 ∧ dig = bytesToHex (hf msg) ∧
          tPre.isPrefixOf dig = true ∧
          ∀ m, start ≤ m → m < n0 →
            tPre.isPrefixOf (bytesToHex (hf (nickname ++ natDecimal m))) = false := by
  intro fuel
  induction fuel with
  | zero => intro start msg dig n0 h; simp [pow_searchAux] at h
  | succ fuel ih =>
    intro start msg dig n0 h
    by_cases hmatch :
        tPre.isPrefixOf (bytesToHex (hf (nickname ++ natDecimal start))) = true
    · rw [pow_searchAux, if_pos hmatch] at h
      obtain ⟨hmsg, hdig, hn0⟩ : nickname ++ natDecimal start = msg ∧
          bytesToHex (hf (nickname ++ natDecimal start)) = dig ∧ start = n0 := by
        simpa using h
      subst hn0
      refine ⟨le_refl _, hmsg.symm, ?_, ?_, ?_⟩
      · rw [← hdig, ← hmsg]
      · rw [← hdig]; exact hmatch
      · intro m hm1 hm2; omega
    · rw [pow_searchAux, if_neg hmatch] at h
      have hrec := ih (start + 1) msg dig n0 h
      refine ⟨by omega, hrec.2.1, hrec.2.2.1, hrec.2.2.2.1, ?_⟩
      intro m hm1 hm2
      rcases Nat.eq_or_lt_of_le hm1 with heq | hlt
      · rw [← heq]
        exact Bool.not_eq_true _ |>.mp hmatch
      · exact hrec.2.2.2.2 m (by omega) hm2

theorem mineAux_spec (hf : List Char → List Nat) (tPre : List Char) :
    ∀ fuel start n0 content dig,
      mineAux hf tPre fuel start = some (n0, content, dig) →
        start ≤ n0 ∧ content = NICKNAME ++ natDecimal n0 ∧
          dig = bytesToHex (hf content) ∧ tPre.isPrefixOf dig = true ∧
          ∀ m, start ≤ m → m < n0 →
            tPre.isPrefixOf (bytesToHex (hf (NICKNAME ++ natDecimal m))) = false := by
  intro fuel
  induction fuel with
  | zero => intro start n0 content dig h; simp [mineAux] at h
  | succ fuel ih =>
    intro start n0 content dig h
    by_cases hmatch :
        tPre.isPrefixOf (bytesToHex (hf (NICKNAME ++ natDecimal start))) = true
    · rw [mineAux, if_pos hmatch] at h
      obtain ⟨hn0, hcontent, hdig⟩ : start = n0 ∧
          NICKNAME ++ natDecimal start = content ∧
          bytesToHex (hf (NICKNAME ++ natDecimal start)) = dig := by
        simpa using h
      subst hn0
      refine ⟨le_refl _, hcontent.symm, ?_, ?_, ?_⟩
      · rw [← hdig, ← hcontent]
      · rw [← hdig]; exact hmatch
      · intro m hm1 hm2; omega
    · rw [mineAux, if_neg hmatch] at h
      have hrec := ih (start + 1) n0 content dig h
      refine ⟨by omega, hrec.2.1, hrec.2.2.1, hrec.2.2.2.1, ?_⟩
      intro m hm1 hm2
      rcases Nat.eq_or_lt_of_le hm1 with heq | hlt
      · rw [← heq]
        exact Bool.not_eq_true _ |>.mp hmatch
      · exact hrec.2.2.2.2 m (by omega) hm2

/-! ### The verifier on integer signatures -/

/-- `powModInt` computes the mathematical `s ^ e mod n`, also for negative
`s`, as Python's `pow` does. -/
theorem powModInt_eq (s : Int) (e n : Nat) (hn : 0 < n) :
    ((powModInt s e n : Nat) : Int) = s ^ e % (n : Int) := by
  have hn0 : (n : Int) ≠ 0 := by
    simp only [ne_eq, Nat.cast_eq_zero]
    omega
  have hnn : (0 : Int) ≤ s % n := Int.emod_nonneg s hn0
  rw [powModInt, powMod_eq]
  push_cast [Int.toNat_of_nonneg hnn]
  have hme : s % (n : Int) ≡ s [ZMOD (n : Int)] := Int.emod_emod_of_dvd s dvd_rfl
  exact hme.pow e

/-! ### The claims -/

/-- C4: the Miller–Rabin test is one-sided: for every prime `n ≥ 2`, every
number of rounds `k ≥ 1` and every sequence of random draws, `is_prime n k`
returns `true` — a true prime is never rejected. -/
theorem C4_miller_rabin_complete (n k : Nat) (seeds : Nat → Nat)
    (hp : Nat.Prime n) (_hk : 1 ≤ k) : is_prime n k seeds = true :=
  isPrime_of_prime n k seeds hp

/-- C4 witness: the prime 29 (the smallest prime that reaches the random
rounds) is accepted with one round and zero seed. -/
theorem C4_miller_rabin_witness : is_prime 29 1 (fun _ => 0) = true :=
  C4_miller_rabin_complete 29 1 (fun _ => 0) (by decide) (le_refl 1)

/-- C5 (amended): in each Miller–Rabin round the base
`randrange 2 (n - 2) s = 2 + s % (n - 4)` lies in the closed interval
`[2, n - 3]` (Python's `randrange` excludes the upper endpoint `n - 2`),
every value of that interval is attained, the draw only depends on
`s % (n - 4)` (uniformity of the half-open range), and the round computes
`x = a ^ d mod n` where `n - 1 = 2 ^ r * d` with `d` odd. -/
theorem C5_base_range (n : Nat) (hn : 28 ≤ n) :
    (∀ s, 2 ≤ randrange 2 (n - 2) s ∧ randrange 2 (n - 2) s ≤ n - 3) ∧
    (∀ s, randrange 2 (n - 2) s = randrange 2 (n - 2) (s % (n - 4))) ∧
    (∀ v, 2 ≤ v → v ≤ n - 3 → randrange 2 (n - 2) (v - 2) = v) ∧
    2 ^ (splitTwos (n - 1)).1 * (splitTwos (n - 1)).2 = n - 1 ∧
    (splitTwos (n - 1)).2 % 2 = 1 ∧
    ∀ a, powMod a (splitTwos (n - 1)).2 n = a ^ (splitTwos (n - 1)).2 % n := by
  refine ⟨?_, ?_, ?_, ?_, ?_, ?_⟩
  · intro s
    show 2 ≤ 2 + s % (n - 2 - 2) ∧ 2 + s % (n - 2 - 2) ≤ n - 3
    have := Nat.mod_lt s (y := n - 2 - 2) (by omega)
    omega
  · intro s
    show 2 + s % (n - 2 - 2) = 2 + s % (n - 2 - 2) % (n - 2 - 2)
    rw [Nat.mod_mod_of_dvd s dvd_rfl]
  · intro v hv2 hv3
    show 2 + (v - 2) % (n - 2 - 2) = v
    rw [Nat.mod_eq_of_lt (by omega)]
    omega
  · exact (splitTwos_spec (n - 1) (by omega)).1
  · exact (splitTwos_spec (n - 1) (by omega)).2
  · intro a
    exact powMod_eq a (splitTwos (n - 1)).2 n

/-- C5 witness: the instance `n = 29`. -/
theorem C5_base_range_witness :
    (∀ s, 2 ≤ randrange 2 (29 - 2) s ∧ randrange 2 (29 - 2) s ≤ 29 - 3) ∧
    (∀ s, randrange 2 (29 - 2) s = randrange 2 (29 - 2) (s % (29 - 4))) ∧
    (∀ v, 2 ≤ v → v ≤ 29 - 3 → randrange 2 (29 - 2) (v - 2) = v) ∧
    2 ^ (splitTwos (29 - 1)).1 * (splitTwos (29 - 1)).2 = 29 - 1 ∧
    (splitTwos (29 - 1)).2 % 2 = 1 ∧
    ∀ a, powMod a (splitTwos (29 - 1)).2 29 = a ^ (splitTwos (29 - 1)).2 % 29 :=
  C5_base_range 29 (by decide)

/-- C5 counterexample: for `n = 29` the code draws
`randrange(2, 27)`; over all raw draws the 25 attainable bases are exactly
`[2, …, 26]` (and the draw with seed 25 wraps back to 2), so the claimed
upper endpoint `n - 2 = 27` is never drawn. -/
theorem C5_counterexample :
    (List.range 25).map (randrange 2 27) = List.range' 2 25 ∧
      List.contains (List.range' 2 25) 27 = false ∧
      randrange 2 27 25 = 2 := by
  decide

/-- C6: both miners return the first match in nonce order: the digest of
`nickname ++ str(n0)` has the required prefix and no smaller nonce's digest
does. -/
theorem C6_first_match :
    (∀ hf nickname tPre fuel msg dig n0,
      pow_search hf nickname tPre fuel = some (msg, dig, n0) →
        tPre.isPrefixOf (bytesToHex (hf (nickname ++ natDecimal n0))) = true ∧
          (List.range n0).all
            (fun m =>
              !(tPre.isPrefixOf (bytesToHex (hf (nickname ++ natDecimal m)))))
            = true) ∧
    (∀ hf tPre fuel n0 content dig,
      mine hf tPre fuel = some (n0, content, dig) →
        tPre.isPrefixOf (bytesToHex (hf (NICKNAME ++ natDecimal n0))) = true ∧
          (List.range n0).all
            (fun m =>
              !(tPre.isPrefixOf (bytesToHex (hf (NICKNAME ++ natDecimal m)))))
            = true) := by
  constructor
  · intro hf nickname tPre fuel msg dig n0 h
    obtain ⟨-, hmsg, hdig, hpref, hmin⟩ :=
      pow_searchAux_spec hf nickname tPre fuel 0 msg dig n0 h
    constructor
    · rw [← hmsg, ← hdig]
      exact hpref
    · rw [List.all_eq_true]
      intro m hm
      show (!(tPre.isPrefixOf (bytesToHex (hf (nickname ++ natDecimal m))))) = true
      rw [hmin m (Nat.zero_le m) (List.mem_range.mp hm)]
      rfl
  · intro hf tPre fuel n0 content dig h
    obtain ⟨-, hcontent, hdig, hpref, hmin⟩ :=
      mineAux_spec hf tPre fuel 0 n0 content dig h
    constructor
    · rw [← hcontent, ← hdig]
      exact hpref
    · rw [List.all_eq_true]
      intro m hm
      show (!(tPre.isPrefixOf (bytesToHex (hf (NICKNAME ++ natDecimal m))))) = true
      rw [hmin m (Nat.zero_le m) (List.mem_range.mp hm)]
      rfl

/-- C6 witness: with a hash model whose hex digest starts with "0" exactly
on message `"Sam1"`, `pow_search` returns nonce 1 and nonce 0 indeed fails;
with the all-zero hash model, `mine` returns nonce 0. -/
theorem C6_first_match_witness :
    (['0'].isPrefixOf (bytesToHex (hashAt1 (NICKNAME ++ natDecimal 1))) = true ∧
      (List.range 1).all
        (fun m => !(['0'].isPrefixOf (bytesToHex (hashAt1 (NICKNAME ++ natDecimal m)))))
        = true) ∧
    (['0', '0', '0', '0'].isPrefixOf
        (bytesToHex (hashZero (NICKNAME ++ natDecimal 0))) = true ∧
      (List.range 0).all
        (fun m =>
          !(['0', '0', '0', '0'].isPrefixOf
            (bytesToHex (hashZero (NICKNAME ++ natDecimal m))))) = true) :=
  ⟨C6_first_match.1 hashAt1 NICKNAME ['0'] 2 (NICKNAME ++ natDecimal 1)
      (bytesToHex (hashAt1 (NICKNAME ++ natDecimal 1))) 1 (by decide),
    C6_first_match.2 hashZero ['0', '0', '0', '0'] 1 0 (NICKNAME ++ natDecimal 0)
      (bytesToHex (hashZero (NICKNAME ++ natDecimal 0))) (by decide)⟩

/-- C7 (amended): `mine` returns `(nonce, message, digest_hex)` (plus an
out-of-scope elapsed-time value), while `pow_search` returns
`(message, digest_hex, nonce)`; in both, the message is the nickname
concatenated with the decimal nonce and the digest is the message's hex
digest. -/
theorem C7_result_shape :
    (∀ hf nickname tPre fuel msg dig n0,
      pow_search hf nickname tPre fuel = some (msg, dig, n0) →
        msg = nickname ++ natDecimal n0 ∧ dig = bytesToHex (hf msg)) ∧
    (∀ hf tPre fuel n0 content dig,
      mine hf tPre fuel = some (n0, content, dig) →
        content = NICKNAME ++ natDecimal n0 ∧ dig = bytesToHex (hf content)) := by
  constructor
  · intro hf nickname tPre fuel msg dig n0 h
    have hs := pow_searchAux_spec hf nickname tPre fuel 0 msg dig n0 h
    exact ⟨hs.2.1, hs.2.2.1⟩
  · intro hf tPre fuel n0 content dig h
    have hs := mineAux_spec hf tPre fuel 0 n0 content dig h
    exact ⟨hs.2.1, hs.2.2.1⟩

/-- C7 witness: the shape facts at the all-zero hash model. -/
theorem C7_result_shape_witness :
    (NICKNAME ++ ['0'] = NICKNAME ++ natDecimal 0 ∧
      List.replicate 64 '0' = bytesToHex (hashZero (NICKNAME ++ ['0']))) ∧
    (NICKNAME ++ ['0'] = NICKNAME ++ natDecimal 0 ∧
      List.replicate 64 '0' = bytesToHex (hashZero (NICKNAME ++ ['0']))) :=
  ⟨C7_result_shape.1 hashZero NICKNAME ['0', '0', '0', '0'] 1 (NICKNAME ++ ['0'])
      (List.replicate 64 '0') 0 (by decide),
    C7_result_shape.2 hashZero ['0', '0', '0', '0'] 1 0 (NICKNAME ++ ['0'])
      (List.replicate 64 '0') (by decide)⟩

/-- C7 counterexample: on the all-zero hash model both miners stop at
nonce 0 with message `"Sam0"`, and `pow_search` returns the tuple in the
order `(message, digest_hex, nonce)` — the nonce is the third component,
not the first as the claim states; `mine` uses the claimed order. -/
theorem C7_counterexample :
    pow_search hashZero NICKNAME ['0', '0', '0', '0'] 1 =
        some (NICKNAME ++ ['0'], List.replicate 64 '0', 0) ∧
      mine hashZero ['0', '0', '0', '0'] 1 =
        some (0, NICKNAME ++ ['0'], List.replicate 64 '0') := by
  decide

/-- C8 (amended): the signer and verifier fail explicitly (a `ValueError`
from three-argument `pow`, modelled `none`) only for `n = 0`; at `n = 1`
both return normally — the signature is 0 and verification compares the
digest with 0. -/
theorem C8_modulus_edge (hf : List Char → List Nat) (m : List Char)
    (d e : Nat) (s : Int) :
    rsa_sign hf m (d, 0) = none ∧ rsa_verify hf m s (e, 0) = none ∧
      rsa_sign hf m (d, 1) = some 0 ∧
      rsa_verify hf m s (e, 1) = some (sha256_int hf m == 0) := by
  refine ⟨by simp [rsa_sign], by simp [rsa_verify], ?_, ?_⟩
  · simp [rsa_sign, powMod_eq, Nat.mod_one]
  · simp [rsa_verify, powModInt, powMod_eq, Nat.mod_one]

/-- C8 counterexample: at modulus `n = 1 ≤ 1` the signer returns the value
0 and the verifier returns a boolean — neither raises. -/
theorem C8_counterexample :
    rsa_sign hashZero ['a'] (3, 1) = some 0 ∧
      rsa_verify hashZero ['a'] 0 (3, 1) = some true := by
  decide

/-- C9: for `n ≥ 2`, `rsa_sign` returns `h ^ d mod n` where `h` is the
big-endian integer value of the digest, and the signature lies in `[0, n)`. -/
theorem C9_sign_spec (hf : List Char → List Nat) (m : List Char) (d n : Nat)
    (hn : 2 ≤ n) :
    rsa_sign hf m (d, n) = some (sha256_int hf m ^ d % n) ∧
      sha256_int hf m ^ d % n < n := by
  constructor
  · have hn0 : ¬((d, n).2 = 0) := by simp; omega
    rw [rsa_sign, if_neg hn0, powMod_eq]
  · exact Nat.mod_lt _ (by omega)

/-- C9 witness: signing with the small-digest hash model at `(d, n) = (3, 10)`. -/
theorem C9_sign_witness :
    rsa_sign hashSmall ['a'] (3, 10) = some (sha256_int hashSmall ['a'] ^ 3 % 10) ∧
      sha256_int hashSmall ['a'] ^ 3 % 10 < 10 :=
  C9_sign_spec hashSmall ['a'] 3 10 (by decide)

/-- C10: `rsa_verify` is total for `n ≥ 1`: it returns a boolean on every
integer signature, negative or oversized included, and that boolean is
`true` exactly when `s ^ e mod n` equals the digest integer. -/
theorem C10_verify_total (hf : List Char → List Nat) (m : List Char)
    (s : Int) (e n : Nat) (hn : 1 ≤ n) :
    ∃ b, rsa_verify hf m s (e, n) = some b ∧
      (b = true ↔ s ^ e % (n : Int) = (sha256_int hf m : Int)) := by
  have hn0 : ¬((e, n).2 = 0) := by simp; omega
  refine ⟨sha256_int hf m == powModInt s e n, ?_, ?_⟩
  · rw [rsa_verify, if_neg hn0]
  · rw [beq_iff_eq]
    constructor
    · intro heq
      rw [heq, powModInt_eq s e n (by omega)]
    · intro heq
      have h2 : ((powModInt s e n : Nat) : Int) = ((sha256_int hf m : Nat) : Int) := by
        rw [powModInt_eq s e n (by omega), heq]
      exact_mod_cast h2.symm

/-- C10 witness: a negative signature against modulus 5. -/
theorem C10_verify_witness :
    ∃ b, rsa_verify hashSmall ['a'] (-2) (3, 5) = some b ∧
      (b = true ↔ (-2 : Int) ^ 3 % ((5 : Nat) : Int) = (sha256_int hashSmall ['a'] : Int)) :=
  C10_verify_total hashSmall ['a'] (-2) 3 5 (by decide)

/-- C3 (amended): everything `generate_large_prime bits` can return has bit
length exactly `bits` (for `bits ≥ 1`), is odd, and passed the 10-round
Miller–Rabin test with the bases drawn at generation time; a re-test with
fresh random draws may still reject it, because the test is probabilistic. -/
theorem C3_prime_generator (bits : Nat) (rand : Nat → Nat) (mr : Nat → Nat → Nat)
    (fuel i0 r : Nat) (hb : 1 ≤ bits)
    (h : generate_large_prime bits rand mr fuel i0 = some r) :
    2 ^ (bits - 1) ≤ r ∧ r < 2 ^ bits ∧ r % 2 = 1 ∧
      ∃ i, r = mkCandidate bits (rand i) ∧ is_prime r 10 (mr i) = true := by
  obtain ⟨i, hcand, hacc⟩ := generate_large_prime_spec bits rand mr fuel i0 r h
  refine ⟨?_, ?_, ?_, ⟨i, hcand, hacc⟩⟩
  · rw [hcand]; exact mkCandidate_ge bits (rand i)
  · rw [hcand]; exact mkCandidate_lt bits (rand i) hb
  · rw [hcand]; exact mkCandidate_odd bits (rand i)

/-- C3 witness: the 12-bit prime 2053 as a return of the generator. -/
theorem C3_prime_generator_witness :
    2 ^ (12 - 1) ≤ 2053 ∧ 2053 < 2 ^ 12 ∧ 2053 % 2 = 1 ∧
      ∃ _i : Nat, 2053 = mkCandidate 12 2053 ∧ is_prime 2053 10 (fun _ => 0) = true :=
  C3_prime_generator 12 (fun _ => 2053) (fun _ _ => 0) 1 0 2053 (by decide) (by decide)

/-- C3 counterexample: with raw draw 3277 and all Miller–Rabin bases equal
to 2 (seed 0), `generate_large_prime 12` returns `3277 = 29 * 113`, a
composite strong pseudoprime to base 2; re-testing it with 20 rounds at
base 3 (seed 1) rejects it — so a returned value need not pass a re-test,
let alone be prime. -/
theorem C3_counterexample :
    generate_large_prime 12 (fun _ => 3277) (fun _ _ => 0) 1 0 = some 3277 ∧
      is_prime 3277 20 (fun _ => 1) = false ∧ 3277 = 29 * 113 := by
  decide

/-- C2 (amended): every key pair `generate_rsa_keypair` can return has
`e = 65537`, both halves share the modulus `n = p * q` built from the two
values `p ≠ q` actually sampled from `generate_large_prime`,
`gcd(e, (p-1)(q-1)) = 1`, and `d` is the canonical inverse of `e` modulo
`(p-1)(q-1)`; `p` and `q` passed the 10-round Miller–Rabin test but are not
guaranteed prime. -/
theorem C2_keypair_invariant (bits : Nat) (randP randQ : Nat → Nat → Nat)
    (mrP mrQ : Nat → Nat → Nat → Nat) (glpFuel fuel : Nat) (e n d n2 : Nat)
    (h : generate_rsa_keypair bits randP randQ mrP mrQ glpFuel fuel
        = some ((e, n), (d, n2))) :
    e = 65537 ∧ n2 = n ∧
      ∃ t p q,
        generate_large_prime (bits / 2) (randP t) (mrP t) glpFuel 0 = some p ∧
        generate_large_prime (bits / 2) (randQ t) (mrQ t) glpFuel 0 = some q ∧
        p ≠ q ∧ n = p * q ∧
        Nat.gcd 65537 ((p - 1) * (q - 1)) = 1 ∧
        d < (p - 1) * (q - 1) ∧
        65537 * d % ((p - 1) * (q - 1)) = 1 := by
  obtain ⟨t, p, q, hP, hQ, hK⟩ :=
    genKeypairAux_spec bits randP randQ mrP mrQ glpFuel fuel 0 ((e, n), (d, n2)) h
  obtain ⟨hne, hg, hkeys⟩ := keypairFromPQ_spec hK
  simp only [Prod.mk.injEq] at hkeys
  obtain ⟨⟨he, hn⟩, hd, hn2⟩ := hkeys
  have h3p := generate_large_prime_three_le hP
  have h3q := generate_large_prime_three_le hQ
  have hphi : 1 < (p - 1) * (q - 1) := by
    have h22 : 2 * 2 ≤ (p - 1) * (q - 1) :=
      Nat.mul_le_mul (by omega) (by omega)
    omega
  have hmi := modInverse_spec 65537 ((p - 1) * (q - 1)) hphi hg
  refine ⟨he, by rw [hn2, hn], t, p, q, hP, hQ, hne, hn, hg, ?_, ?_⟩
  · rw [hd]; exact hmi.1
  · rw [hd]; exact hmi.2

/-- C2 witness: the honest 12-bit primes 2053 and 2063. -/
theorem C2_keypair_witness :
    (65537 : Nat) = 65537 ∧ (4235339 : Nat) = 4235339 ∧
      ∃ _t : Nat, ∃ p q : Nat,
        generate_large_prime (24 / 2) (fun _ => 2053) (fun _ _ => 0) 1 0 = some p ∧
        generate_large_prime (24 / 2) (fun _ => 2063) (fun _ _ => 0) 1 0 = some q ∧
        p ≠ q ∧ (4235339 : Nat) = p * q ∧
        Nat.gcd 65537 ((p - 1) * (q - 1)) = 1 ∧
        4138577 < (p - 1) * (q - 1) ∧
        65537 * 4138577 % ((p - 1) * (q - 1)) = 1 :=
  C2_keypair_invariant 24 (fun _ _ => 2053) (fun _ _ => 2063) (fun _ _ _ => 0)
    (fun _ _ _ => 0) 1 1 65537 4235339 4138577 4235339 (by decide)

/-- C2 counterexample: the sampled `p` need not be prime: with raw draws
3277 (a base-2 strong pseudoprime, `3277 = 29 * 113`) and 2053 and all
bases equal to 2, `generate_rsa_keypair` returns a key pair whose modulus
`6727681 = 3277 * 2053` has a composite factor. -/
theorem C2_counterexample :
    generate_rsa_keypair 24 (fun _ _ => 3277) (fun _ _ => 2053)
        (fun _ _ _ => 0) (fun _ _ _ => 0) 1 1
      = some ((65537, 6727681), (3555809, 6727681)) ∧
      (6727681 : Nat) = 3277 * 2053 ∧ (3277 : Nat) = 29 * 113 := by
  decide

/-- C1 (amended): signing then verifying succeeds for every message and
every key pair built by `keypairFromPQ` from two values `p, q` that are in
fact prime, provided the digest integer is below the modulus (true for
actual SHA-256 digests once `n` has more than 256 bits). -/
theorem C1_roundtrip (hf : List Char → List Nat) (m : List Char)
    (p q e n d n2 : Nat) (hp : Nat.Prime p) (hq : Nat.Prime q)
    (hkey : keypairFromPQ p q = some ((e, n), (d, n2)))
    (hlt : sha256_int hf m < n) :
    ∃ s, rsa_sign hf m (d, n2) = some s ∧
      rsa_verify hf m (s : Int) (e, n) = some true := by
  obtain ⟨hne, hg, hkeys⟩ := keypairFromPQ_spec hkey
  simp only [Prod.mk.injEq] at hkeys
  obtain ⟨⟨he, hn⟩, hd, hn2⟩ := hkeys
  subst he hn hd hn2
  set phi := (p - 1) * (q - 1) with hphidef
  set sha := sha256_int hf m with hshadef
  have hp2 := hp.two_le
  have hq2 := hq.two_le
  have hphi : 1 < phi := by
    have h23 : 2 ≤ p - 1 ∨ 2 ≤ q - 1 := by omega
    rcases h23 with h23 | h23
    · have h22 : 2 * 1 ≤ (p - 1) * (q - 1) := Nat.mul_le_mul h23 (by omega)
      omega
    · have h22 : 1 * 2 ≤ (p - 1) * (q - 1) := Nat.mul_le_mul (by omega) h23
      omega
  have hnpos : 0 < p * q := Nat.mul_pos (by omega) (by omega)
  have hmi := modInverse_spec 65537 phi hphi hg
  set mi := modInverse 65537 phi with hmidef
  set s := powMod sha mi (p * q) with hsdef
  have hslt : s < p * q := by
    rw [hsdef, powMod_eq]
    exact Nat.mod_lt _ hnpos
  have hrt : sha ^ (65537 * mi) ≡ sha [MOD p * q] :=
    roundtrip_exponent hp hq hne hmi.2 sha
  have hrteq : sha ^ (65537 * mi) % (p * q) = sha % (p * q) := hrt
  have hchain : s ^ 65537 % (p * q) = sha := by
    rw [hsdef, powMod_eq, ← Nat.pow_mod, ← pow_mul, mul_comm mi 65537, hrteq,
      Nat.mod_eq_of_lt hlt]
  have hcast : powModInt (s : Int) 65537 (p * q) = s ^ 65537 % (p * q) := by
    have h1 := powModInt_eq (s : Int) 65537 (p * q) hnpos
    have h2 : ((s ^ 65537 % (p * q) : Nat) : Int)
        = ((s : Nat) : Int) ^ 65537 % (((p * q : Nat)) : Int) := by
      push_cast
      ring_nf
    exact_mod_cast h1.trans h2.symm
  refine ⟨s, ?_, ?_⟩
  · have hn0 : ¬((mi, p * q).2 = 0) := by simp; omega
    rw [rsa_sign, if_neg hn0]
  · have hn0 : ¬((65537, p * q).2 = 0) := by simp; omega
    rw [rsa_verify, if_neg hn0, hcast, hchain, ← hshadef, beq_self_eq_true]

/-- C1 witness: round-trip with the honest keypair from primes 2053, 2063
and a hash model whose digest (7) is below the modulus. -/
theorem C1_roundtrip_witness :
    ∃ s, rsa_sign hashSmall ['a'] (4138577, 4235339) = some s ∧
      rsa_verify hashSmall ['a'] (s : Int) (65537, 4235339) = some true :=
  C1_roundtrip hashSmall ['a'] 2053 2063 65537 4235339 4138577 4235339
    (by norm_num) (by norm_num) (by decide) (by decide)

/-- C1 counterexample: the full generator pipeline produces the honest
keypair from the primes 2053 and 2063, yet with a hash model whose digest
is `2 ^ 256 - 1 ≥ n` (as every actual SHA-256 digest would be for this
small modulus) verification of a fresh signature fails: the verifier
compares the unreduced digest with a value below `n`. -/
theorem C1_counterexample :
    generate_rsa_keypair 24 (fun _ _ => 2053) (fun _ _ => 2063)
        (fun _ _ _ => 0) (fun _ _ _ => 0) 1 1
      = some ((65537, 4235339), (4138577, 4235339)) ∧
      Nat.Prime 2053 ∧ Nat.Prime 2063 ∧
      rsa_sign hashFF ['S', 'a', 'm', '0'] (4138577, 4235339) = some 2070086 ∧
      rsa_verify hashFF ['S', 'a', 'm', '0'] 2070086 (65537, 4235339)
        = some false := by
  refine ⟨by decide, by norm_num, by norm_num, by decide, by decide⟩
